import Mathlib

/-!
Verification of the segment-construction core (and the HTTP validation
helpers) of `src/app.py`, an audio-transcription service with speaker
diarization.

The embedding works at the level of the values the Python code manipulates:

* recognized words carry a text, an integer speaker tag and rational
  start/end offsets in seconds (`w.start_time.total_seconds()` is embedded
  directly as the rational field `start_time`);
* Python strings are Lean `String`s; the Python methods `str.strip` and
  `str.join` are embedded at the code-point level by `strip` and `join`
  below;
* Python `round(x, 2)` is embedded on exact rationals by `round2`
  (round-half-up to two decimal places; Python rounds the nearest binary
  double half-to-even, which agrees on every non-tie value used here);
* Python list indexing `words[i]`, including its negative-index semantics,
  is embedded by `pyGet`.
-/

/-- Core-point-level embedding of Python `str.strip()` on a list of
characters: drop whitespace from both ends. -/
def stripChars (l : List Char) : List Char :=
  ((l.dropWhile Char.isWhitespace).reverse.dropWhile Char.isWhitespace).reverse

/-- Embedding of Python `str.strip()`. -/
def strip (s : String) : String :=
  ⟨stripChars s.data⟩

/-- Embedding of Python `sep.join(parts)` on lists (of code points):
interpose `sep` between consecutive parts. -/
def joinChars {α : Type} (sep : List α) : List (List α) → List α
  | [] => []
  | [x] => x
  | x :: y :: xs => x ++ sep ++ joinChars sep (y :: xs)

/-- Embedding of Python `sep.join(parts)` on strings. -/
def join (sep : String) (parts : List String) : String :=
  ⟨joinChars sep.data (parts.map String.data)⟩

/-- Embedding of Python `round(x, 2)` on exact rationals, computed on the
numerator and denominator so that the kernel can evaluate it; the theorem
`round2_eq_floor` below shows it equals the textbook
`(floor (x * 100 + 1 / 2)) / 100`. -/
def round2 (x : ℚ) : ℚ :=
  Rat.divInt ((200 * x.num + (x.den : Int)) / (2 * (x.den : Int))) 100

/-- Embedding of Python list indexing `l[i]`: negative indices count from
the end; an index that is still out of range yields `none` (Python raises
`IndexError`). -/
def pyGet {α : Type} (l : List α) (i : Int) : Option α :=
  if i < 0 then
    let j : Int := i + l.length
    if j < 0 then none else l[j.toNat]?
  else
    l[i.toNat]?

/-- One word of the recognition result (`alternative.words[k]` in
`src/app.py`): its text, diarized speaker tag and start/end offsets in
seconds. -/
structure RecognizedWord where
  word : String
  speaker_tag : Int
  start_time : ℚ
  end_time : ℚ
deriving DecidableEq

/-- One output segment, a Python dict in `src/app.py` with keys
`speaker`, `start`, `end` and `text`; the dict key `end` is embedded as
the field `stop` because `end` is a Lean keyword. -/
structure Segment where
  speaker : String
  start : ℚ
  stop : ℚ
  text : String
deriving DecidableEq

/-- Mutable state of the grouping loop of `process_audio_with_diarization`
(src/app.py lines 117-142): `current_speaker`, `current_start`,
`current_words` and the accumulated `segments` list. -/
structure LoopState where
  current_speaker : Int
  current_start : ℚ
  current_words : List String
  segments : List Segment
deriving DecidableEq

/-- Body of `for idx, w in enumerate(words)` in src/app.py lines 121-142.
On a speaker change the previous segment is closed using
`words[idx - 1].end_time`; the `Option.getD` junk default is only reached
if that lookup is out of range (it never is, see the safety theorem). -/
def loopStep (words : List RecognizedWord) (st : LoopState)
    (idx : Nat) (w : RecognizedWord) : LoopState :=
  if w.speaker_tag ≠ st.current_speaker then
    let last_word := (pyGet words ((idx : Int) - 1)).getD ⟨"", 0, 0, 0⟩
    { current_speaker := w.speaker_tag
      current_start := w.start_time
      current_words := [w.word]
      segments := st.segments ++
        [{ speaker := "Speaker " ++ toString st.current_speaker
           start := round2 st.current_start
           stop := round2 last_word.end_time
           text := strip (join " " st.current_words) }] }
  else
    { st with current_words := st.current_words ++ [w.word] }

/-- Closing of the last segment after the loop, src/app.py lines 144-154:
`words[-1].end_time` closes the final run. -/
def closeLast (words : List RecognizedWord) (st : LoopState) : List Segment :=
  st.segments ++
    [{ speaker := "Speaker " ++ toString st.current_speaker
       start := round2 st.current_start
       stop := round2 (words.getLastD ⟨"", 0, 0, 0⟩).end_time
       text := strip (join " " st.current_words) }]

/-- The Segment Builder as written in src/app.py lines 103-156: fallback
segment for an empty word list, otherwise the grouping loop over
`enumerate(words)` followed by `closeLast`. -/
def build_segments (words : List RecognizedWord) (transcript : String)
    (duration_sec : ℚ) : List Segment :=
  match words with
  | [] => [{ speaker := "unknown", start := 0, stop := duration_sec,
             text := strip transcript }]
  | w0 :: rest =>
    closeLast (w0 :: rest)
      ((List.enum (w0 :: rest)).foldl
        (fun st p => loopStep (w0 :: rest) st p.1 p.2)
        { current_speaker := w0.speaker_tag
          current_start := w0.start_time
          current_words := []
          segments := [] })

/-- Inner loop of the spec's reference algorithm (spec section 4.1,
steps 2-3): iterate over each subsequent word, carrying the immediately
preceding word `prev`, the current run's tag, recorded start time and
text buffer, and the segments emitted so far. -/
def specGo : List RecognizedWord → RecognizedWord → Int → ℚ →
    List String → List Segment → List Segment
  | [], prev, tag, s, buf, acc =>
    acc ++ [{ speaker := "Speaker " ++ toString tag, start := round2 s,
              stop := round2 prev.end_time, text := strip (join " " buf) }]
  | w :: ws, prev, tag, s, buf, acc =>
    if w.speaker_tag = tag then
      specGo ws w tag s (buf ++ [w.word]) acc
    else
      specGo ws w w.speaker_tag w.start_time [w.word]
        (acc ++ [{ speaker := "Speaker " ++ toString tag, start := round2 s,
                   stop := round2 prev.end_time,
                   text := strip (join " " buf) }])

/-- Reference algorithm written out in the spec (section 4.1): empty word
list gives the fallback segment; otherwise the run starts from the first
word with a single-element buffer and only the subsequent words are
scanned. Stated from the spec's words, to be compared with
`build_segments`. -/
def build_segments_spec (words : List RecognizedWord)
    (fallback_transcript : String) (total_duration : ℚ) : List Segment :=
  match words with
  | [] => [{ speaker := "unknown", start := 0, stop := total_duration,
             text := strip fallback_transcript }]
  | w0 :: rest => specGo rest w0 w0.speaker_tag w0.start_time [w0.word] []

/-- Helper identity: `round2` is rounding half up at the second decimal
place. -/
theorem round2_eq_floor (x : ℚ) :
    round2 x = ((⌊x * 100 + 1 / 2⌋ : ℤ) : ℚ) / 100 := by
  have hd : ((x.den : ℕ) : ℚ) ≠ 0 := Nat.cast_ne_zero.mpr x.den_nz
  have hnum : (x.num : ℚ) = x * (x.den : ℚ) := by
    have h := Rat.num_div_den x
    rwa [div_eq_iff hd] at h
  have h2 : (((2 * x.den : ℕ)) : ℚ) ≠ 0 := by
    push_cast
    exact mul_ne_zero two_ne_zero hd
  have hx : x * 100 + 1 / 2 =
      (((200 * x.num + (x.den : Int)) : ℤ) : ℚ) / (((2 * x.den : ℕ)) : ℚ) := by
    rw [eq_div_iff h2]
    push_cast
    rw [hnum]
    ring
  have hfl : ⌊x * 100 + 1 / 2⌋ =
      (200 * x.num + (x.den : Int)) / ((2 * x.den : ℕ) : ℤ) := by
    rw [hx]
    exact Rat.floor_intCast_div_natCast _ _
  rw [round2, Rat.divInt_eq_div,
    show (2 * (x.den : Int)) = ((2 * x.den : ℕ) : ℤ) by push_cast; ring, hfl]
  norm_num

/-- Helper: a Python lookup at a plain in-range position. -/
theorem pyGet_append_length {α : Type} (pre : List α) (p : α) (suf : List α) :
    pyGet (pre ++ p :: suf) ((pre.length : Int)) = some p := by
  unfold pyGet
  rw [if_neg (by omega : ¬ ((pre.length : Int) < 0))]
  rw [show ((pre.length : Int)).toNat = pre.length from Int.toNat_natCast _]
  rw [List.getElem?_append_right (Nat.le_refl _)]
  simp

/-- Helper: running the code's loop body over the words after position
`pre.length` computes exactly the spec's inner loop, where `prev` is the
word at position `pre.length`. -/
theorem foldl_loopStep_eq_specGo (words : List RecognizedWord)
    (suf : List RecognizedWord) :
    ∀ (pre : List RecognizedWord) (prev : RecognizedWord) (tag : Int) (s : ℚ)
      (buf : List String) (acc : List Segment),
    words = pre ++ prev :: suf →
    closeLast words
      ((List.enumFrom (pre.length + 1) suf).foldl
        (fun st p => loopStep words st p.1 p.2)
        { current_speaker := tag, current_start := s,
          current_words := buf, segments := acc })
    = specGo suf prev tag s buf acc := by
  induction suf with
  | nil =>
    intro pre prev tag s buf acc hw
    subst hw
    simp only [List.enumFrom, List.foldl, specGo, closeLast]
    simp [List.getLastD_eq_getLast?]
  | cons w ws ih =>
    intro pre prev tag s buf acc hw
    rw [List.enumFrom_cons, List.foldl_cons]
    by_cases h : w.speaker_tag = tag
    · have hstep : loopStep words
          { current_speaker := tag, current_start := s,
            current_words := buf, segments := acc } (pre.length + 1) w =
          { current_speaker := tag, current_start := s,
            current_words := buf ++ [w.word], segments := acc } := by
        simp [loopStep, h]
      rw [hstep]
      have hw' : words = (pre ++ [prev]) ++ w :: ws := by
        rw [hw]
        simp
      have hrec := ih (pre ++ [prev]) w tag s (buf ++ [w.word]) acc hw'
      simp only [List.length_append, List.length_cons, List.length_nil] at hrec
      simpa [specGo, h] using hrec
    · have hpy : pyGet words ((pre.length : Int)) = some prev := by
        rw [hw]
        exact pyGet_append_length pre prev (w :: ws)
      have hstep : loopStep words
          { current_speaker := tag, current_start := s,
            current_words := buf, segments := acc } (pre.length + 1) w =
          { current_speaker := w.speaker_tag, current_start := w.start_time,
            current_words := [w.word],
            segments := acc ++
              [{ speaker := "Speaker " ++ toString tag, start := round2 s,
                 stop := round2 prev.end_time,
                 text := strip (join " " buf) }] } := by
        simp [loopStep, h, hpy]
      rw [hstep]
      have hw' : words = (pre ++ [prev]) ++ w :: ws := by
        rw [hw]
        simp
      have hrec := ih (pre ++ [prev]) w w.speaker_tag w.start_time [w.word]
        (acc ++
          [{ speaker := "Speaker " ++ toString tag, start := round2 s,
             stop := round2 prev.end_time, text := strip (join " " buf) }]) hw'
      simp only [List.length_append, List.length_cons, List.length_nil] at hrec
      simpa [specGo, h] using hrec

/-- Helper: the Segment Builder as implemented equals the spec's reference
algorithm on every input. -/
theorem build_segments_eq_spec (words : List RecognizedWord)
    (transcript : String) (duration_sec : ℚ) :
    build_segments words transcript duration_sec =
      build_segments_spec words transcript duration_sec := by
  cases words with
  | nil => rfl
  | cons w0 rest =>
    have h0 : List.enum (w0 :: rest) = (0, w0) :: List.enumFrom 1 rest := by
      simp [List.enum]
    simp only [build_segments, h0, List.foldl_cons]
    have hstep : loopStep (w0 :: rest)
        { current_speaker := w0.speaker_tag, current_start := w0.start_time,
          current_words := [], segments := [] } 0 w0 =
        { current_speaker := w0.speaker_tag, current_start := w0.start_time,
          current_words := [w0.word], segments := [] } := by
      simp [loopStep]
    rw [hstep]
    have hrec := foldl_loopStep_eq_specGo (w0 :: rest) rest []
      w0 w0.speaker_tag w0.start_time [w0.word] [] (by simp)
    simp only [List.length_nil, Nat.zero_add] at hrec
    simpa [build_segments_spec] using hrec

/-- Grouping of a word list into maximal runs of consecutive equal speaker
tags, carrying the current run `cur` (never empty) whose tag is `tag`.
Stated from the spec's words (sections 4.1 and 8), to characterise the
Segment Builder's output. -/
def runsAux (tag : Int) (cur : List RecognizedWord) :
    List RecognizedWord → List (List RecognizedWord)
  | [] => [cur]
  | w :: ws =>
    if w.speaker_tag = tag then runsAux tag (cur ++ [w]) ws
    else cur :: runsAux w.speaker_tag [w] ws

/-- Maximal runs of consecutive equal speaker tags of a word list. -/
def speakerRuns : List RecognizedWord → List (List RecognizedWord)
  | [] => []
  | w :: ws => runsAux w.speaker_tag [w] ws

/-- Segment a single (non-empty) run of words from one speaker closes
into: the label names the run's tag, the start is the first word's start
time, the end is the last word's end time, the text is the word texts
joined by single spaces and stripped. -/
def runToSegment : List RecognizedWord → Segment
  | [] => { speaker := "", start := 0, stop := 0, text := "" }
  | h :: t =>
    { speaker := "Speaker " ++ toString h.speaker_tag
      start := round2 h.start_time
      stop := round2 ((h :: t).getLastD h).end_time
      text := strip (join " " ((h :: t).map (fun w => w.word))) }

/-- Helper: the spec's inner loop emits exactly one segment per maximal
run, where the pending run is `hd :: t` and `prev` is its last word. -/
theorem specGo_eq_runsAux (suf : List RecognizedWord) :
    ∀ (hd : RecognizedWord) (t : List RecognizedWord) (prev : RecognizedWord)
      (acc : List Segment),
    (hd :: t).getLast? = some prev →
    specGo suf prev hd.speaker_tag hd.start_time
      ((hd :: t).map (fun w => w.word)) acc
    = acc ++ (runsAux hd.speaker_tag (hd :: t) suf).map runToSegment := by
  induction suf with
  | nil =>
    intro hd t prev acc hlast
    have hD : (hd :: t).getLast?.getD hd = prev := by
      rw [hlast]
      rfl
    simp [specGo, runsAux, runToSegment, hD]
  | cons w ws ih =>
    intro hd t prev acc hlast
    by_cases h : w.speaker_tag = hd.speaker_tag
    · have hcons : hd :: (t ++ [w]) = (hd :: t) ++ [w] := by
        simp
      have hrec := ih hd (t ++ [w]) w acc
        (by rw [hcons]; exact List.getLast?_concat _)
      simp only [specGo, runsAux, if_pos h]
      simpa using hrec
    · have hD : (hd :: t).getLast?.getD hd = prev := by
        rw [hlast]
        rfl
      have hseg : runToSegment (hd :: t) =
          { speaker := "Speaker " ++ toString hd.speaker_tag,
            start := round2 hd.start_time,
            stop := round2 prev.end_time,
            text := strip (join " " ((hd :: t).map (fun w => w.word))) } := by
        simp [runToSegment, hD]
      have hrec := ih w [] w (acc ++ [runToSegment (hd :: t)]) rfl
      simp only [List.map_cons, List.map_nil] at hrec
      simp only [specGo, runsAux, if_neg h]
      rw [← hseg, hrec]
      simp

/-- Helper: on a non-empty word list the Segment Builder emits exactly the
image of the maximal speaker runs under `runToSegment`. -/
theorem build_segments_eq_runs (words : List RecognizedWord)
    (transcript : String) (duration_sec : ℚ) (h : words ≠ []) :
    build_segments words transcript duration_sec =
      (speakerRuns words).map runToSegment := by
  cases words with
  | nil => exact absurd rfl h
  | cons w0 rest =>
    rw [build_segments_eq_spec]
    have hrec := specGo_eq_runsAux rest w0 [] w0 [] rfl
    simpa [build_segments_spec, speakerRuns] using hrec

/-- Helper: concatenating the maximal runs recovers the pending run
followed by the unscanned words. -/
theorem runsAux_join (suf : List RecognizedWord) :
    ∀ (tag : Int) (cur : List RecognizedWord),
    (runsAux tag cur suf).flatten = cur ++ suf := by
  induction suf with
  | nil =>
    intro tag cur
    simp [runsAux]
  | cons w ws ih =>
    intro tag cur
    by_cases h : w.speaker_tag = tag
    · simp only [runsAux, if_pos h]
      rw [ih]
      simp
    · simp only [runsAux, if_neg h, List.flatten_cons]
      rw [ih]
      simp

/-- Helper: concatenating the maximal runs recovers the word list. -/
theorem speakerRuns_join (words : List RecognizedWord) :
    (speakerRuns words).flatten = words := by
  cases words with
  | nil => rfl
  | cons w ws =>
    simpa [speakerRuns] using runsAux_join ws w.speaker_tag [w]

/-- Helper: every maximal run is non-empty. -/
theorem runsAux_ne_nil (suf : List RecognizedWord) :
    ∀ (tag : Int) (cur : List RecognizedWord), cur ≠ [] →
    ∀ r ∈ runsAux tag cur suf, r ≠ [] := by
  induction suf with
  | nil =>
    intro tag cur hcur r hr
    simp only [runsAux, List.mem_singleton] at hr
    exact hr ▸ hcur
  | cons w ws ih =>
    intro tag cur hcur r hr
    by_cases h : w.speaker_tag = tag
    · rw [runsAux, if_pos h] at hr
      exact ih tag (cur ++ [w]) (by simp) r hr
    · rw [runsAux, if_neg h] at hr
      rcases List.mem_cons.mp hr with h1 | h1
      · exact h1 ▸ hcur
      · exact ih w.speaker_tag [w] (by simp) r h1

/-- Helper: every maximal run is non-empty (top level). -/
theorem speakerRuns_ne_nil (words : List RecognizedWord) :
    ∀ r ∈ speakerRuns words, r ≠ [] := by
  cases words with
  | nil => intro r hr; simp [speakerRuns] at hr
  | cons w ws =>
    intro r hr
    exact runsAux_ne_nil ws w.speaker_tag [w] (by simp) r hr

/-- Helper: every maximal run is a sublist of the pending run followed by
the unscanned words. -/
theorem runsAux_sublist (suf : List RecognizedWord) :
    ∀ (tag : Int) (cur : List RecognizedWord),
    ∀ r ∈ runsAux tag cur suf, r.Sublist (cur ++ suf) := by
  induction suf with
  | nil =>
    intro tag cur r hr
    simp only [runsAux, List.mem_singleton] at hr
    subst hr
    exact List.sublist_append_left r []
  | cons w ws ih =>
    intro tag cur r hr
    by_cases h : w.speaker_tag = tag
    · rw [runsAux, if_pos h] at hr
      have := ih tag (cur ++ [w]) r hr
      simpa using this
    · rw [runsAux, if_neg h] at hr
      rcases List.mem_cons.mp hr with h1 | h1
      · subst h1
        exact List.sublist_append_left r (w :: ws)
      · have h2 := ih w.speaker_tag [w] r h1
        simp only [List.singleton_append] at h2
        exact h2.trans (List.sublist_append_right cur (w :: ws))

/-- Helper: every maximal run is a sublist of the word list. -/
theorem speakerRuns_sublist (words : List RecognizedWord) :
    ∀ r ∈ speakerRuns words, r.Sublist words := by
  cases words with
  | nil => intro r hr; simp [speakerRuns] at hr
  | cons w ws =>
    intro r hr
    simpa using runsAux_sublist ws w.speaker_tag [w] r hr

/-- Helper: `round2` is monotone. -/
theorem round2_mono {x y : ℚ} (h : x ≤ y) : round2 x ≤ round2 y := by
  rw [round2_eq_floor, round2_eq_floor]
  rw [div_le_div_iff_of_pos_right (by norm_num : (0 : ℚ) < 100)]
  exact_mod_cast Int.floor_mono (by linarith)

/-- Helper: `round2` is idempotent: two-decimal values are fixed. -/
theorem round2_idem (x : ℚ) : round2 (round2 x) = round2 x := by
  rw [round2_eq_floor x]
  set m := ⌊x * 100 + 1 / 2⌋ with hm
  rw [round2_eq_floor]
  have h1 : ((m : ℚ)) / 100 * 100 + 1 / 2 = (m : ℚ) + 1 / 2 := by
    field_simp
  rw [h1]
  have h0 : ⌊(1 : ℚ) / 2⌋ = 0 := by
    rw [Int.floor_eq_zero_iff, Set.mem_Ico]
    norm_num
  have h2 : ⌊(m : ℚ) + 1 / 2⌋ = m := by
    rw [add_comm, Int.floor_add_int, h0, zero_add]
  rw [h2]

/-- Safety predicate for one iteration of the grouping loop: if the
speaker-change branch is taken then the iteration index is at least 1 and
the predecessor lookup `words[idx - 1]` is the plain in-range lookup at
position `idx - 1` (in particular it does not wrap around or fall out of
range). -/
def branchSafe (words : List RecognizedWord) (st : LoopState)
    (idx : Nat) (w : RecognizedWord) : Prop :=
  w.speaker_tag ≠ st.current_speaker →
    1 ≤ idx ∧ pyGet words ((idx : Int) - 1) = words[idx - 1]? ∧
      (words[idx - 1]?).isSome = true

/-- All iterations of the grouping loop, run from state `st` over the
enumerated word-index pairs, satisfy `branchSafe`. -/
def allStepsSafe (words : List RecognizedWord) :
    LoopState → List (Nat × RecognizedWord) → Prop
  | _, [] => True
  | st, p :: rest =>
    branchSafe words st p.1 p.2 ∧
      allStepsSafe words (loopStep words st p.1 p.2) rest

/-- Helper: from index 1 on, every iteration is branch-safe regardless of
the loop state, because the predecessor index is in range. -/
theorem allStepsSafe_enumFrom (words : List RecognizedWord)
    (suf : List RecognizedWord) :
    ∀ (k : Nat) (st : LoopState), 1 ≤ k → k + suf.length ≤ words.length →
    allStepsSafe words st (List.enumFrom k suf) := by
  induction suf with
  | nil =>
    intro k st _ _
    simp [allStepsSafe]
  | cons w ws ih =>
    intro k st hk hlen
    rw [List.enumFrom_cons]
    constructor
    · intro _
      refine ⟨hk, ?_, ?_⟩
      · unfold pyGet
        rw [if_neg (by omega : ¬ ((k : Int) - 1 < 0))]
        have : ((k : Int) - 1).toNat = k - 1 := by omega
        rw [this]
      · have hlt : k - 1 < words.length := by
          simp only [List.length_cons] at hlen
          omega
        rw [List.getElem?_eq_getElem hlt]
        rfl
    · apply ih (k + 1) _ (by omega)
      simp only [List.length_cons] at hlen
      omega

/-- One hypothesis (an alternative) of a recognition result, as used in
src/app.py lines 100-101: its transcript and its word list. -/
structure SpeechAlternative where
  transcript : String
  words : List RecognizedWord
deriving DecidableEq

/-- One result chunk of the recognition response. -/
structure SpeechRecognitionResult where
  alternatives : List SpeechAlternative
deriving DecidableEq

/-- The recognition response: an ordered list of result chunks. -/
structure RecognizeResponse where
  results : List SpeechRecognitionResult
deriving DecidableEq

/-- Response handling of `process_audio_with_diarization`, src/app.py
lines 95-156: an empty result list returns `[]` (not an error); otherwise
the last result's first alternative feeds the Segment Builder
(`alternatives[0]` on an empty alternative list raises `IndexError`,
embedded as the error branch). -/
def handle_response (response : RecognizeResponse)
    (duration_sec : ℚ) : Except String (List Segment) :=
  match response.results.getLast? with
  | none => .ok []
  | some result =>
    match result.alternatives.head? with
    | none => .error "list index out of range"
    | some alternative =>
      .ok (build_segments alternative.words alternative.transcript duration_sec)

/-- The allowed upload extensions of src/app.py line 18. -/
def ALLOWED_EXTENSIONS : List String := ["wav", "mp3", "flac", "m4a"]

/-- The `allowed_file` check of src/app.py lines 16-19: the filename must
contain a dot and the lowercased text after the last dot
(`filename.rsplit(".", 1)[1].lower()`) must be an allowed extension. -/
def allowed_file (filename : String) : Bool :=
  filename.data.contains '.' &&
    ALLOWED_EXTENSIONS.contains
      ⟨(filename.data.reverse.takeWhile (fun c => c ≠ '.')).reverse.map
        Char.toLower⟩

/-- Outcome of the upload endpoint's validation, src/app.py lines 28-36:
either an error response with an HTTP status, or the accepted filename
that proceeds to processing. -/
inductive UploadOutcome where
  | reject (status : Nat) (error : String)
  | accept (filename : String)
deriving DecidableEq

/-- Validation of the upload request, src/app.py lines 28-36; the request
is embedded as the optional filename of its `file` field (`none` when the
field is missing). -/
def validate_upload : Option String → UploadOutcome
  | none => .reject 400 "No file part in request"
  | some filename =>
    if filename = "" then .reject 400 "No file selected"
    else if allowed_file filename = false then
      .reject 400 "Unsupported file type"
    else .accept filename

/-- A character list that starts with a non-whitespace character. -/
def headOK (l : List Char) : Bool :=
  match l.head? with
  | some c => !c.isWhitespace
  | none => false

/-- A character list that ends with a non-whitespace character. -/
def lastOK (l : List Char) : Bool :=
  match l.getLast? with
  | some c => !c.isWhitespace
  | none => false

/-- A clean token: non-empty, with no leading and no trailing whitespace
(so that joining and stripping cannot alter it). -/
def cleanToken (l : List Char) : Bool := headOK l && lastOK l

/-- Helper: a clean token is non-empty. -/
theorem cleanToken_ne_nil {l : List Char} (h : cleanToken l = true) :
    l ≠ [] := by
  intro hnil
  subst hnil
  simp [cleanToken, headOK] at h

/-- Helper: stripping a clean token changes nothing. -/
theorem stripChars_eq_self {l : List Char} (h : cleanToken l = true) :
    stripChars l = l := by
  have h' := h
  simp only [cleanToken, Bool.and_eq_true] at h'
  obtain ⟨h1, h2⟩ := h'
  have hd : l.dropWhile Char.isWhitespace = l := by
    cases l with
    | nil => rfl
    | cons a t =>
      have ha : a.isWhitespace = false := by
        simpa [headOK] using h1
      rw [List.dropWhile_cons, ha]
      simp
  have hr : l.reverse.dropWhile Char.isWhitespace = l.reverse := by
    cases hrev : l.reverse with
    | nil => rfl
    | cons b t' =>
      have hb' : l.getLast? = some b := by
        rw [← List.head?_reverse, hrev]
        rfl
      have hb : b.isWhitespace = false := by
        simpa [lastOK, hb'] using h2
      rw [List.dropWhile_cons, hb]
      simp
  rw [stripChars, hd, hr, List.reverse_reverse]

/-- Helper: the head condition only looks at the first part of an
append. -/
theorem headOK_append (x m : List Char) (hx : x ≠ []) :
    headOK (x ++ m) = headOK x := by
  cases x with
  | nil => exact absurd rfl hx
  | cons a t => rfl

/-- Helper: the last condition only looks at the second part of an
append when that part is non-empty. -/
theorem lastOK_append (m j : List Char) (hj : j ≠ []) :
    lastOK (m ++ j) = lastOK j := by
  have hsome : j.getLast?.isSome := List.getLast?_isSome.mpr hj
  rcases Option.isSome_iff_exists.mp hsome with ⟨b, hb⟩
  unfold lastOK
  rw [List.getLast?_append, hb]
  rfl

/-- Helper: joining clean tokens yields a clean token. -/
theorem cleanToken_joinChars (sep : List Char) :
    ∀ (xs : List (List Char)) (x : List Char), cleanToken x = true →
    (∀ y ∈ xs, cleanToken y = true) →
    cleanToken (joinChars sep (x :: xs)) = true := by
  intro xs
  induction xs with
  | nil =>
    intro x hx _
    exact hx
  | cons y ys ih =>
    intro x hx hall
    have hy := hall y (List.mem_cons_self y ys)
    have hj := ih y hy (fun z hz => hall z (List.mem_cons_of_mem y hz))
    have hxne : x ≠ [] := cleanToken_ne_nil hx
    have hjne : joinChars sep (y :: ys) ≠ [] := cleanToken_ne_nil hj
    have hshape : joinChars sep (x :: y :: ys) =
        x ++ (sep ++ joinChars sep (y :: ys)) := by
      rw [show joinChars sep (x :: y :: ys) =
        x ++ sep ++ joinChars sep (y :: ys) from rfl]
      simp [List.append_assoc]
    have hx' := hx
    simp only [cleanToken, Bool.and_eq_true] at hx'
    have hj' := hj
    simp only [cleanToken, Bool.and_eq_true] at hj'
    obtain ⟨hx1, _⟩ := hx'
    obtain ⟨_, hj2⟩ := hj'
    rw [hshape, cleanToken, headOK_append x _ hxne, lastOK_append]
    · rw [lastOK_append sep _ hjne]
      rw [hx1, hj2]
      rfl
    · intro hc
      rcases List.append_eq_nil.mp hc with ⟨_, h2⟩
      exact hjne h2

/-- Helper: joining across an append of non-empty token groups. -/
theorem joinChars_append {α : Type} (sep : List α) (m : List (List α))
    (hm : m ≠ []) :
    ∀ (p : List (List α)), p ≠ [] →
    joinChars sep (p ++ m) = joinChars sep p ++ sep ++ joinChars sep m := by
  intro p
  induction p with
  | nil =>
    intro hp
    exact absurd rfl hp
  | cons x p' ih =>
    intro _
    cases p' with
    | nil =>
      cases m with
      | nil => exact absurd rfl hm
      | cons y m' => simp [joinChars]
    | cons x' p'' =>
      have hstep := ih (by simp)
      have hL : (x :: x' :: p'') ++ m = x :: ((x' :: p'') ++ m) := by
        simp
      have hcc : (x' :: p'') ++ m = x' :: (p'' ++ m) := by
        simp
      rw [hL, hcc]
      rw [show joinChars sep (x :: x' :: (p'' ++ m)) =
        x ++ sep ++ joinChars sep (x' :: (p'' ++ m)) from rfl]
      rw [← hcc, hstep]
      rw [show joinChars sep (x :: x' :: p'') =
        x ++ sep ++ joinChars sep (x' :: p'') from rfl]
      simp [List.append_assoc]

/-- Helper: joining the per-group joins of non-empty groups equals
joining the flattened groups. -/
theorem joinChars_map_join {α : Type} (sep : List α) :
    ∀ (ps : List (List (List α))), (∀ p ∈ ps, p ≠ []) →
    joinChars sep (ps.map (joinChars sep)) = joinChars sep ps.flatten := by
  intro ps
  induction ps with
  | nil =>
    intro _
    rfl
  | cons p ps' ih =>
    intro hall
    have hp : p ≠ [] := hall p (List.mem_cons_self p ps')
    cases ps' with
    | nil => simp [joinChars]
    | cons q ps'' =>
      have hq : q ≠ [] := hall q (by simp)
      have hfl : (q :: ps'').flatten ≠ [] := by
        rw [List.flatten_cons]
        intro hc
        exact hq (List.append_eq_nil.mp hc).1
      have hrec := ih (fun z hz => hall z (List.mem_cons_of_mem p hz))
      rw [List.map_cons, List.map_cons,
        show joinChars sep (joinChars sep p :: joinChars sep q ::
            List.map (joinChars sep) ps'') =
          joinChars sep p ++ sep ++
            joinChars sep (joinChars sep q :: List.map (joinChars sep) ps'')
          from rfl,
        ← List.map_cons (joinChars sep) q ps'', hrec,
        show (p :: q :: ps'').flatten = p ++ (q :: ps'').flatten from rfl,
        joinChars_append sep (q :: ps'').flatten hfl p hp]

/-- Helper: on clean word texts (non-empty, no leading or trailing
whitespace) the space-joined segment texts reproduce the space-joined
input word texts. -/
theorem texts_join_eq (words : List RecognizedWord) (h : words ≠ [])
    (hclean : ∀ w ∈ words, cleanToken w.word.data = true)
    (transcript : String) (duration_sec : ℚ) :
    join " "
      ((build_segments words transcript duration_sec).map (fun s => s.text)) =
      join " " (words.map (fun w => w.word)) := by
  rw [build_segments_eq_runs words transcript duration_sec h]
  apply String.ext
  show joinChars (" ".data)
      ((((speakerRuns words).map runToSegment).map (fun s => s.text)).map
        String.data) =
    joinChars (" ".data) ((words.map (fun w => w.word)).map String.data)
  rw [List.map_map, List.map_map, List.map_map]
  simp only [Function.comp_def]
  have hclean' : ∀ r ∈ speakerRuns words, ∀ w ∈ r,
      cleanToken w.word.data = true := by
    intro r hr w hw
    exact hclean w ((speakerRuns_sublist words r hr).subset hw)
  have hstep : ((speakerRuns words).map
      (fun r => ((runToSegment r).text).data)) =
      (speakerRuns words).map
        (fun r => joinChars (" ".data) (r.map (fun w => w.word.data))) := by
    apply List.map_congr_left
    intro r hr
    cases r with
    | nil => exact absurd rfl (speakerRuns_ne_nil words [] hr)
    | cons hd t =>
      show stripChars (joinChars (" ".data)
          (((hd :: t).map (fun w => w.word)).map String.data)) = _
      rw [List.map_map]
      simp only [Function.comp_def]
      apply stripChars_eq_self
      apply cleanToken_joinChars (" ".data)
        (t.map (fun w => w.word.data)) _
        (hclean' (hd :: t) hr hd (List.mem_cons_self hd t))
      intro y hy
      rcases List.mem_map.mp hy with ⟨w, hw, rfl⟩
      exact hclean' (hd :: t) hr w (List.mem_cons_of_mem hd hw)
  rw [hstep]
  have hparts : ∀ p ∈ (speakerRuns words).map
      (fun r => r.map (fun w => w.word.data)), p ≠ [] := by
    intro p hp
    rcases List.mem_map.mp hp with ⟨r, hr, rfl⟩
    intro hc
    exact speakerRuns_ne_nil words r hr (List.map_eq_nil_iff.mp hc)
  have hmj := joinChars_map_join (" ".data)
    ((speakerRuns words).map (fun r => r.map (fun w => w.word.data))) hparts
  rw [List.map_map] at hmj
  simp only [Function.comp_def] at hmj
  rw [hmj, ← List.map_flatten, speakerRuns_join]

/-- Helper: under the input contract (word start at most word end, words
sorted by start time, non-negative duration) every emitted segment has
start at most end. -/
theorem segments_start_le_stop (words : List RecognizedWord)
    (transcript : String) (duration : ℚ)
    (hse : ∀ w ∈ words, w.start_time ≤ w.end_time)
    (hsort : List.Pairwise (fun a b => a.start_time ≤ b.start_time) words)
    (hdur : 0 ≤ duration) :
    ∀ s ∈ build_segments words transcript duration, s.start ≤ s.stop := by
  cases words with
  | nil =>
    intro s hs
    simp only [build_segments, List.mem_singleton] at hs
    subst hs
    exact hdur
  | cons w0 rest =>
    intro s hs
    rw [build_segments_eq_runs _ _ _ (by simp)] at hs
    rcases List.mem_map.mp hs with ⟨r, hr, rfl⟩
    cases r with
    | nil => exact absurd rfl (speakerRuns_ne_nil _ [] hr)
    | cons hd0 t =>
      have hsub := speakerRuns_sublist (w0 :: rest) (hd0 :: t) hr
      have hpw : List.Pairwise (fun a b => a.start_time ≤ b.start_time)
          (hd0 :: t) := hsort.sublist hsub
      set lw := (hd0 :: t).getLastD hd0 with hlw
      have hlmem : lw ∈ hd0 :: t := by
        rw [hlw, List.getLastD_eq_getLast?,
          List.getLast?_eq_getLast (hd0 :: t) (by simp)]
        exact List.getLast_mem (by simp)
      have h1 : hd0.start_time ≤ lw.start_time := by
        rcases List.mem_cons.mp hlmem with he | ht
        · rw [he]
        · exact (List.pairwise_cons.mp hpw).1 lw ht
      have h2 : lw.start_time ≤ lw.end_time := hse lw (hsub.subset hlmem)
      show round2 hd0.start_time ≤ round2 lw.end_time
      exact round2_mono (le_trans h1 h2)

/-- Helper: every maximal run is constant in its speaker tag (given the
pending run already is). -/
theorem runsAux_tag_const (suf : List RecognizedWord) :
    ∀ (tag : Int) (cur : List RecognizedWord),
    (∀ x ∈ cur, x.speaker_tag = tag) →
    ∀ r ∈ runsAux tag cur suf, ∃ tg : Int, ∀ x ∈ r, x.speaker_tag = tg := by
  induction suf with
  | nil =>
    intro tag cur hcur r hr
    simp only [runsAux, List.mem_singleton] at hr
    exact ⟨tag, hr ▸ hcur⟩
  | cons w ws ih =>
    intro tag cur hcur r hr
    by_cases h : w.speaker_tag = tag
    · rw [runsAux, if_pos h] at hr
      refine ih tag (cur ++ [w]) ?_ r hr
      intro x hx
      rcases List.mem_append.mp hx with h1 | h1
      · exact hcur x h1
      · rw [List.mem_singleton] at h1
        rw [h1]
        exact h
    · rw [runsAux, if_neg h] at hr
      rcases List.mem_cons.mp hr with h1 | h1
      · exact ⟨tag, h1 ▸ hcur⟩
      · exact ih w.speaker_tag [w] (by simp) r h1

/-- Helper: any two words of one maximal run share their speaker tag. -/
theorem speakerRuns_tag_const (words : List RecognizedWord) :
    ∀ r ∈ speakerRuns words, ∀ a ∈ r, ∀ b ∈ r,
      a.speaker_tag = b.speaker_tag := by
  cases words with
  | nil =>
    intro r hr
    simp [speakerRuns] at hr
  | cons w ws =>
    intro r hr a ha b hb
    obtain ⟨tg, htg⟩ := runsAux_tag_const ws w.speaker_tag [w] (by simp) r hr
    rw [htg a ha, htg b hb]

/-- Helper: the first maximal run extends the pending run. -/
theorem runsAux_head (suf : List RecognizedWord) :
    ∀ (tag : Int) (cur : List RecognizedWord),
    ∃ ext rest, runsAux tag cur suf = (cur ++ ext) :: rest := by
  induction suf with
  | nil =>
    intro tag cur
    exact ⟨[], [], by simp [runsAux]⟩
  | cons w ws ih =>
    intro tag cur
    by_cases h : w.speaker_tag = tag
    · obtain ⟨ext, rest, hr⟩ := ih tag (cur ++ [w])
      refine ⟨[w] ++ ext, rest, ?_⟩
      rw [runsAux, if_pos h, hr]
      simp
    · exact ⟨[], runsAux w.speaker_tag [w] ws,
        by rw [runsAux, if_neg h, List.append_nil]⟩

/-- Two runs whose boundary words (last of the first, first of the
second) carry different speaker tags. -/
def runBoundaryNe (r s : List RecognizedWord) : Prop :=
  ∀ a ∈ r.getLast?, ∀ b ∈ s.head?, a.speaker_tag ≠ b.speaker_tag

/-- Helper: consecutive maximal runs differ in speaker tag at their
boundary, so the runs are maximal. -/
theorem runsAux_chain (suf : List RecognizedWord) :
    ∀ (tag : Int) (cur : List RecognizedWord), cur ≠ [] →
    (∀ x ∈ cur, x.speaker_tag = tag) →
    List.Chain' runBoundaryNe (runsAux tag cur suf) := by
  induction suf with
  | nil =>
    intro tag cur _ _
    simp [runsAux]
  | cons w ws ih =>
    intro tag cur hne hcur
    by_cases h : w.speaker_tag = tag
    · rw [runsAux, if_pos h]
      refine ih tag (cur ++ [w]) (by simp) ?_
      intro x hx
      rcases List.mem_append.mp hx with h1 | h1
      · exact hcur x h1
      · rw [List.mem_singleton] at h1
        rw [h1]
        exact h
    · rw [runsAux, if_neg h]
      rw [List.chain'_cons']
      constructor
      · intro y hy
        obtain ⟨ext, rest, hrr⟩ := runsAux_head ws w.speaker_tag [w]
        rw [hrr] at hy
        simp only [List.head?_cons, Option.mem_def, Option.some.injEq] at hy
        intro a ha b hb
        subst hy
        simp only [List.singleton_append, List.head?_cons, Option.mem_def,
          Option.some.injEq] at hb
        subst hb
        have hamem : a ∈ cur := List.mem_of_mem_getLast? ha
        rw [hcur a hamem]
        intro hc
        exact h hc.symm
      · exact ih w.speaker_tag [w] (by simp) (by simp)

/-- Helper: consecutive maximal runs of a word list have different tags
at their boundaries. -/
theorem speakerRuns_chain (words : List RecognizedWord) :
    List.Chain' runBoundaryNe (speakerRuns words) := by
  cases words with
  | nil => simp [speakerRuns]
  | cons w ws => exact runsAux_chain ws w.speaker_tag [w] (by simp) (by simp)

/-- C1: for every non-empty word sequence the Segment Builder closes one
segment per maximal run of consecutive equal speaker tags, exactly at the
speaker changes: the label is "Speaker tag" for the run's tag, the start
is the run's recorded (first word's) start time, the end is the end time
of the run's last word — the word immediately preceding the speaker
change, or the last word overall for the final run — and the text is the
run's word texts joined by single spaces and trimmed; in particular the
spec's example input yields exactly its two stated segments. -/
theorem C1_segments_are_runs :
    (∀ (words : List RecognizedWord) (transcript : String) (duration : ℚ),
      words ≠ [] →
      build_segments words transcript duration =
        (speakerRuns words).map runToSegment) ∧
    build_segments
        [⟨"hi", 1, 0, 1⟩, ⟨"there", 1, 1, 2⟩, ⟨"yo", 2, 2, 3⟩] "" 0 =
      [⟨"Speaker 1", 0, 2, "hi there"⟩, ⟨"Speaker 2", 2, 3, "yo"⟩] := by
  constructor
  · intro words t d h
    exact build_segments_eq_runs words t d h
  · decide

/-- Witness for C1 at a concrete two-speaker input. -/
theorem C1_witness :
    build_segments [⟨"a", 1, 0, 1⟩, ⟨"b", 2, 1, 2⟩] "t" 9 =
      (speakerRuns [⟨"a", 1, 0, 1⟩, ⟨"b", 2, 1, 2⟩]).map runToSegment :=
  C1_segments_are_runs.1 [⟨"a", 1, 0, 1⟩, ⟨"b", 2, 1, 2⟩] "t" 9 (by decide)

/-- C2: for the empty word sequence the Segment Builder returns exactly
one segment with speaker "unknown", start 0.0, end the total duration and
text the trimmed fallback transcript; in particular "hello world" with
duration 12.34 yields the stated singleton. -/
theorem C2_empty_words_fallback :
    (∀ (fallback_transcript : String) (total_duration : ℚ),
      build_segments [] fallback_transcript total_duration =
        [{ speaker := "unknown", start := 0, stop := total_duration,
           text := strip fallback_transcript }]) ∧
    build_segments [] "hello world" (mkRat 1234 100) =
      [{ speaker := "unknown", start := 0, stop := mkRat 1234 100,
         text := "hello world" }] :=
  ⟨fun _ _ => rfl, by decide⟩

/-- C3: for every non-empty word sequence the number of emitted segments
equals the number of maximal runs of consecutive equal speaker tags;
non-adjacent runs of one speaker are not merged, so the one-word-each
sequence with tags 1, 2, 1 yields three segments. -/
theorem C3_segment_count :
    (∀ (words : List RecognizedWord) (transcript : String) (duration : ℚ),
      words ≠ [] →
      (build_segments words transcript duration).length =
        (speakerRuns words).length) ∧
    (build_segments
        [⟨"a", 1, 0, 1⟩, ⟨"b", 2, 1, 2⟩, ⟨"c", 1, 2, 3⟩] "" 0).length = 3 := by
  constructor
  · intro words t d h
    rw [build_segments_eq_runs words t d h, List.length_map]
  · decide

/-- Witness for C3 at a concrete alternating input. -/
theorem C3_witness :
    (build_segments [⟨"x", 3, 0, 1⟩, ⟨"y", 4, 1, 2⟩] "" 0).length =
      (speakerRuns [⟨"x", 3, 0, 1⟩, ⟨"y", 4, 1, 2⟩]).length :=
  C3_segment_count.1 [⟨"x", 3, 0, 1⟩, ⟨"y", 4, 1, 2⟩] "" 0 (by decide)

/-- C4 counterexample: a word whose text carries leading whitespace is
altered by the per-segment trim, so concatenating the segment texts does
not reproduce the input word texts for every non-empty sequence. -/
theorem C4_counterexample :
    ¬ (∀ (words : List RecognizedWord) (transcript : String) (duration : ℚ),
        words ≠ [] →
        join " " ((build_segments words transcript duration).map
          (fun s => s.text)) = join " " (words.map (fun w => w.word))) := by
  intro hall
  have h := hall [⟨" hi", 1, 0, 1⟩] "" 0 (by decide)
  revert h
  decide

/-- C4 (amended): provided every word's text is a clean token — non-empty
with no leading or trailing whitespace — concatenating the segment texts
in order with single spaces reproduces the space-joined input word texts,
with no word dropped and none duplicated. -/
theorem C4_concat_words (words : List RecognizedWord) (transcript : String)
    (duration : ℚ) (h : words ≠ [])
    (hclean : ∀ w ∈ words, cleanToken w.word.data = true) :
    join " "
      ((build_segments words transcript duration).map (fun s => s.text)) =
      join " " (words.map (fun w => w.word)) :=
  texts_join_eq words h hclean transcript duration

/-- Witness for C4 at a concrete clean-token input. -/
theorem C4_witness :
    join " " ((build_segments [⟨"hi", 1, 0, 1⟩, ⟨"yo", 2, 1, 2⟩] "" 0).map
      (fun s => s.text)) =
      join " " ([⟨"hi", 1, 0, 1⟩, ⟨"yo", 2, 1, 2⟩].map
        (fun w : RecognizedWord => w.word)) :=
  C4_concat_words [⟨"hi", 1, 0, 1⟩, ⟨"yo", 2, 1, 2⟩] "" 0
    (by decide) (by decide)

/-- C5: under the input contract — each word's start at most its end,
words ordered by non-decreasing start time, non-negative total duration —
every emitted segment satisfies start at most end. -/
theorem C5_start_le_end (words : List RecognizedWord) (transcript : String)
    (duration : ℚ)
    (hse : ∀ w ∈ words, w.start_time ≤ w.end_time)
    (hsort : List.Pairwise (fun a b => a.start_time ≤ b.start_time) words)
    (hdur : 0 ≤ duration) :
    ∀ s ∈ build_segments words transcript duration, s.start ≤ s.stop :=
  segments_start_le_stop words transcript duration hse hsort hdur

/-- Witness for C5 at a concrete sorted input. -/
theorem C5_witness :
    (build_segments [⟨"a", 1, 0, 1⟩, ⟨"b", 2, 1, 3⟩] "x" 7).all
      (fun s => decide (s.start ≤ s.stop)) = true := by
  have h := C5_start_le_end [⟨"a", 1, 0, 1⟩, ⟨"b", 2, 1, 3⟩] "x" 7
    (by decide) (by decide) (by decide)
  rw [List.all_eq_true]
  intro s hs
  exact decide_eq_true (h s hs)

/-- C6 counterexample: the fallback segment emitted for an empty word
list carries the total duration unrounded, so with duration 0.001 its end
value is not a value rounded to 2 decimal places. -/
theorem C6_counterexample :
    ¬ (∀ (words : List RecognizedWord) (transcript : String) (duration : ℚ),
        ∀ s ∈ build_segments words transcript duration,
          round2 s.start = s.start ∧ round2 s.stop = s.stop) := by
  intro hall
  have h := hall [] "x" (mkRat 1 1000)
    { speaker := "unknown", start := 0, stop := mkRat 1 1000, text := "x" }
    (by decide)
  revert h
  decide

/-- C6 (amended): every start and end value of a segment built from a
non-empty word list is rounded to 2 decimal places at emission time (it
is a fixed point of `round2`); the empty-list fallback segment's end is
the total duration passed through without rounding. -/
theorem C6_rounded_emission (words : List RecognizedWord)
    (transcript : String) (duration : ℚ) (h : words ≠ []) :
    ∀ s ∈ build_segments words transcript duration,
      round2 s.start = s.start ∧ round2 s.stop = s.stop := by
  intro s hs
  rw [build_segments_eq_runs words transcript duration h] at hs
  rcases List.mem_map.mp hs with ⟨r, hr, rfl⟩
  cases r with
  | nil => exact ⟨by decide, by decide⟩
  | cons hd t => exact ⟨round2_idem hd.start_time, round2_idem _⟩

/-- Witness for C6 at a concrete input with sub-centisecond offsets. -/
theorem C6_witness :
    (build_segments [⟨"a", 1, mkRat 1 1000, mkRat 3 1000⟩] "" 0).all
      (fun s =>
        decide (round2 s.start = s.start) &&
          decide (round2 s.stop = s.stop)) = true := by
  have h := C6_rounded_emission [⟨"a", 1, mkRat 1 1000, mkRat 3 1000⟩] "" 0
    (by decide)
  rw [List.all_eq_true]
  intro s hs
  rcases h s hs with ⟨h1, h2⟩
  rw [Bool.and_eq_true]
  exact ⟨decide_eq_true h1, decide_eq_true h2⟩

/-- C7: the code's loop — empty initial buffer, iterating over every word
including the first — is extensionally equal to the spec's reference
algorithm, which seeds the buffer with the first word's text and scans
only the subsequent words. -/
theorem C7_loop_refines_spec :
    ∀ (words : List RecognizedWord) (transcript : String) (duration : ℚ),
      build_segments words transcript duration =
        build_segments_spec words transcript duration :=
  fun words transcript duration =>
    build_segments_eq_spec words transcript duration

/-- C8: when the recognition service returns no results at all the
pipeline returns an empty segment list and reports no error. -/
theorem C8_empty_results (response : RecognizeResponse) (duration : ℚ)
    (h : response.results = []) :
    handle_response response duration = Except.ok [] := by
  simp [handle_response, h]

/-- Witness for C8 at the concrete empty response. -/
theorem C8_witness : handle_response ⟨[]⟩ 0 = Except.ok [] :=
  C8_empty_results ⟨[]⟩ 0 rfl

/-- C9: upload validation returns 400 "No file part in request" when the
file field is missing, 400 "No file selected" when the filename is empty,
and 400 "Unsupported file type" whenever the `allowed_file` extension
check fails (in particular for "song.xyz"); it proceeds to processing
exactly when all three checks pass. -/
theorem C9_upload_validation :
    (validate_upload none = .reject 400 "No file part in request") ∧
    (validate_upload (some "") = .reject 400 "No file selected") ∧
    (∀ filename : String, filename ≠ "" → allowed_file filename = false →
      validate_upload (some filename) =
        .reject 400 "Unsupported file type") ∧
    (validate_upload (some "song.xyz") =
      .reject 400 "Unsupported file type") ∧
    (∀ filename : String, filename ≠ "" → allowed_file filename = true →
      validate_upload (some filename) = .accept filename) := by
  refine ⟨rfl, by decide, ?_, by decide, ?_⟩
  · intro filename h1 h2
    simp [validate_upload, h1, h2]
  · intro filename h1 h2
    simp [validate_upload, h1, h2]

/-- Witness for C9 at concrete accepted and rejected filenames. -/
theorem C9_witness :
    validate_upload (some "nodot") = .reject 400 "Unsupported file type" ∧
    validate_upload (some "talk.mp3") = .accept "talk.mp3" :=
  ⟨C9_upload_validation.2.2.1 "nodot" (by decide) (by decide),
   C9_upload_validation.2.2.2.2 "talk.mp3" (by decide) (by decide)⟩

/-- C10: in the grouping loop over a non-empty word list every iteration
is branch-safe: the speaker-change branch is unreachable at index 0
(the current speaker starts as the first word's tag), and whenever it is
taken the index is at least 1 and the `words[idx - 1]` lookup is the
plain in-range lookup at position idx - 1. -/
theorem C10_predecessor_in_bounds :
    ∀ (w0 : RecognizedWord) (rest : List RecognizedWord),
      allStepsSafe (w0 :: rest)
        { current_speaker := w0.speaker_tag, current_start := w0.start_time,
          current_words := [], segments := [] }
        (List.enum (w0 :: rest)) := by
  intro w0 rest
  have h0 : List.enum (w0 :: rest) = (0, w0) :: List.enumFrom 1 rest := by
    simp [List.enum]
  rw [h0]
  constructor
  · intro hne
    exact absurd rfl hne
  · exact allStepsSafe_enumFrom (w0 :: rest) rest 1 _ (by omega)
      (by simp only [List.length_cons]; omega)
